import Mathlib

/-!
Verification of the mesh-I/O core of `tutorials/QuerySeamVerticesSorted/QuerySeamVerticesSorted.cpp`:
the attributed-mesh parser `readOBJ`, the simple-format parser `readOFF` with its
line reader `readLine`, the writer `writeOFF`, and the seam-sequence decode loop
in `main`.

Modelling conventions (value-level shallow embedding):
* Machine integers are modelled as `ℕ`/`ℤ`; `double` values are modelled as `ℚ`
  (all coordinate handling in the source is value-for-value copying apart from
  the `%f` output formatting, modelled explicitly by `round6`).
* Fallible steps return `Option`; an access with no defined result in the C++
  source (out-of-range `std::vector::operator[]`, `memcpy` past the end of a
  buffer, reading past an allocated array) is modelled as `none`.
* Files are modelled at line granularity: one constructor per syntactic line
  kind.  `sscanf` applied to a line of the kind the call site expects is
  modelled by destructuring that constructor; applying a numeric scan to a line
  of a different kind is below the model's granularity and is modelled as
  failure (this case is not exercised by any statement below).
-/

set_option autoImplicit false

namespace Mcut

/-! ### Seam-sequence decode (source: `main`, the loop over
`seamVertexSequenceArrayFromMCUT` with `runningOffset`). -/

/-- One decoded seam record: the ordered vertex-index list of the sequence and
its `McBool` loop flag (an unsigned 32-bit value in the source, kept as `ℕ`). -/
abbrev SeamRec := List ℕ × ℕ

/-- Read `k` consecutive elements of `buf` starting at offset `off`.  Models the
`memcpy(currentSeamVertexSequenceIndices.data(), ... .data() + runningOffset, ...)`
element reads on the in-bounds domain.  The source performs no bounds check of
its own; `none` here only marks a read that would leave the vector, where the
source's unchecked access has no defined result — it restricts theorems over
this function to the in-bounds domain on which the model is exact.  The
unchecked reads themselves, as the source performs them, are modelled by
`readNUB` below. -/
def readN (buf : List ℕ) : ℕ → ℕ → Option (List ℕ)
  | _, 0 => some []
  | off, k+1 =>
    (buf[off]?).bind fun x =>
      (readN buf (off+1) k).map fun xs => x :: xs

/-- Decode `k` length-prefixed sequences starting at offset `off`: per record the
source reads `length`, then the loop flag, then copies `length` indices, each via
`seamVertexSequenceArrayFromMCUT[runningOffset++]`.  Returns the records together
with the final value of `runningOffset`.  As with `readN`, the source never
checks bounds: `none` only delimits the in-bounds domain (success here coincides
with every read staying inside the buffer); the unchecked loop itself is
`decodeSeqUB` below. -/
def decodeSeq (buf : List ℕ) : ℕ → ℕ → Option (List SeamRec × ℕ)
  | off, 0 => some ([], off)
  | off, k+1 =>
    (buf[off]?).bind fun len =>
      (buf[off+1]?).bind fun flag =>
        (readN buf (off+2) len).bind fun idxs =>
          (decodeSeq buf (off+2+len) k).map fun p =>
            ((idxs, flag) :: p.1, p.2)

/-- The whole decode: element 0 is `numSeamVertexSequences`, then that many
length/flag/indices groups are read in order (in-bounds domain; see
`decodeSeamsUB` for the unchecked loop). -/
def decodeSeams (buf : List ℕ) : Option (List SeamRec) :=
  (buf[0]?).bind fun n => (decodeSeq buf 1 n).map Prod.fst

/-- The element reads exactly as the source performs them, with no bounds
check: `seamVertexSequenceArrayFromMCUT[i]` yields the vector element when `i`
is inside the vector, and otherwise reads whatever the adjacent memory holds —
represented by the arbitrary valuation `mem` (in C++ the access is undefined
behaviour; the loop has no error path of any kind). -/
def readNUB (buf : List ℕ) (mem : ℕ → ℕ) : ℕ → ℕ → List ℕ
  | _, 0 => []
  | off, k+1 => buf.getD off (mem off) :: readNUB buf mem (off+1) k

/-- The decode loop of the source over `k` records with unchecked reads (see
`readNUB`): it always runs to completion and always produces records, whatever
the declared lengths demand. -/
def decodeSeqUB (buf : List ℕ) (mem : ℕ → ℕ) : ℕ → ℕ → List SeamRec × ℕ
  | off, 0 => ([], off)
  | off, k+1 =>
    let len := buf.getD off (mem off)
    let flag := buf.getD (off+1) (mem (off+1))
    let idxs := readNUB buf mem (off+2) len
    let rest := decodeSeqUB buf mem (off+2+len) k
    ((idxs, flag) :: rest.1, rest.2)

/-- The whole decode with unchecked reads, as in the source: no failure path
exists. -/
def decodeSeamsUB (buf : List ℕ) (mem : ℕ → ℕ) : List SeamRec :=
  (decodeSeqUB buf mem 1 (buf.getD 0 (mem 0))).1

/-! ### Attributed-mesh parser (source: `readOBJ`). -/

/-- One whitespace token of a face line as seen by pass 3.  A token whose first
character is `f` is skipped by `if (buf[0] == 'f') continue;` (constructor
`fword`; the command token `f` itself is of this kind).  Any other token is a
corner reference: `corner subs` records the integers of its `/`-separated
subfields (`strtok` collapses consecutive separators).  The model covers tokens
whose text begins with their first subfield integer, which is the value
`sscanf(token, "%d", &val)` extracts; that leading integer is `subs.headI`. -/
inductive ObjTok where
  | fword
  | corner (subs : List ℤ)
  deriving DecidableEq

/-- A classified line of the attributed format, as produced by the command-prefix
tests on `lineBuf`.  `toks` of a face line are the tokens after the `f ` command.
Blank lines, comments and unrecognised commands are all skipped in every pass and
are represented by `other`.  Vertex/normal/texcoord constructors carry exactly
the field count their `sscanf` must produce (a line with a different field count
aborts the parse and is not exercised below). -/
inductive ObjLine where
  | v (x y z : ℚ)
  | vn (x y z : ℚ)
  | vt (u w : ℚ)
  | f (toks : List ObjTok)
  | other
  deriving DecidableEq

/-- Is a token a corner reference (not skipped by the `'f'` test)? -/
def isCornerTok : ObjTok → Bool
  | .fword => false
  | .corner _ => true

/-- Is a line a `vt ` line? -/
def isVtLine : ObjLine → Bool
  | .vt _ _ => true
  | _ => false

/-- Pass-2 vertex fill: the coordinates of the `v ` lines in file order. -/
def objVertices (lines : List ObjLine) : List (ℚ × ℚ × ℚ) :=
  lines.filterMap fun l =>
    match l with
    | .v x y z => some (x, y, z)
    | _ => none

/-- Pass-2 normal fill: the coordinates of the `vn ` lines in file order. -/
def objNormals (lines : List ObjLine) : List (ℚ × ℚ × ℚ) :=
  lines.filterMap fun l =>
    match l with
    | .vn x y z => some (x, y, z)
    | _ => none

/-- Pass-2 texcoord fill: the coordinates of the `vt ` lines in file order. -/
def objTexcoords (lines : List ObjLine) : List (ℚ × ℚ) :=
  lines.filterMap fun l =>
    match l with
    | .vt u w => some (u, w)
    | _ => none

/-- Pass-2 face sizing: for each `f ` line, `faceVertexCount` is the number of
whitespace tokens after the command (`strtok(lineBuf + 2, " ")` loop). -/
def objFaceSizes (lines : List ObjLine) : List ℕ :=
  lines.filterMap fun l =>
    match l with
    | .f toks => some toks.length
    | _ => none

/-- The pass-3 corner count of a face line: tokens surviving the `'f'` skip. -/
def cornerCount (l : ObjLine) : Option ℕ :=
  match l with
  | .f toks => some (toks.filter isCornerTok).length
  | _ => none

/-- The three corner-index arrays of pass 3, kept as store logs `(slot, value)`
in store order; the slot is the value of `faceIndicesCounter` at the store.
(Slots never stored into correspond to array cells the source leaves
uninitialised.) -/
structure Logs where
  v : List (ℕ × ℤ)
  t : List (ℕ × ℤ)
  n : List (ℕ × ℤ)
  deriving DecidableEq

/-- The inner subfield loop of pass 3 for one corner token, transcribed from the
source: `faceVertexDataIt` starts at 0; on each subfield, if it equals 1 and the
mesh has no texcoords so far it is bumped to 2 (the slash-shift), then the value
`val` — which the source extracts by `sscanf(token, "%d", &val)` from the whole
corner token, not from the subfield — already decremented by one is stored into
the vertex / texcoord / normal corner-index array for 0 / 1 / 2, nothing for
larger values; then `faceVertexDataIt` is incremented.  `k` is the number of
subfields remaining. -/
def subfieldStores (tex : Bool) (pos : ℕ) (val : ℤ) : ℕ → ℕ → Logs → Logs
  | _, 0, logs => logs
  | dataIt, k+1, logs =>
    let d := if dataIt = 1 ∧ tex = false then 2 else dataIt
    let logs1 :=
      if d = 0 then { logs with v := logs.v ++ [(pos, val)] }
      else if d = 1 then { logs with t := logs.t ++ [(pos, val)] }
      else if d = 2 then { logs with n := logs.n ++ [(pos, val)] }
      else logs
    subfieldStores tex pos val (d+1) k logs1

/-- Pass-3 processing of the token list of one face line: `f`-initial tokens are
skipped; each corner token runs the subfield loop with the stored value
`val - 1` where `val` is the token's leading integer, then `faceIndicesCounter`
(`pos`) advances by one.  Returns the final counter and the logs. -/
def processCorners (tex : Bool) : List ObjTok → ℕ → Logs → ℕ × Logs
  | [], pos, logs => (pos, logs)
  | .fword :: rest, pos, logs => processCorners tex rest pos logs
  | .corner subs :: rest, pos, logs =>
      processCorners tex rest (pos + 1)
        (subfieldStores tex pos (subs.headI - 1) 0 subs.length logs)

/-- Pass 3 over the whole file.  `nT` is the running `nTexCoords` counter of this
pass (so `haveTexCoords` at a face line counts only the `vt ` lines above it);
`fid` is `faceId`; after a face's tokens are processed, `iter` (the number of
corner tokens) is compared with `(*pFaceSizes)[faceId]` from pass 2 and a
mismatch aborts (`none`). -/
def pass3 (sizes : List ℕ) : List ObjLine → ℕ → ℕ → ℕ → Logs → Option (Logs × ℕ)
  | [], _, pos, _, logs => some (logs, pos)
  | .vt _ _ :: rest, nT, pos, fid, logs => pass3 sizes rest (nT+1) pos fid logs
  | .f toks :: rest, nT, pos, fid, logs =>
      let res := processCorners (decide (0 < nT)) toks pos logs
      if (toks.filter isCornerTok).length = sizes.getD fid 0 then
        pass3 sizes rest nT res.1 (fid+1) res.2
      else none
  | _ :: rest, nT, pos, fid, logs => pass3 sizes rest nT pos fid logs

/-- The outputs of `readOBJ`: the `num*` out-parameters, the filled coordinate
arrays, the face-size array, `nFaceIndices`, the three corner-index store logs,
and the final `faceIndicesCounter`. -/
structure ObjResult where
  numVertices : ℕ
  numNormals : ℕ
  numTexcoords : ℕ
  numFaces : ℕ
  vertices : List (ℚ × ℚ × ℚ)
  normals : List (ℚ × ℚ × ℚ)
  texcoords : List (ℚ × ℚ)
  faceSizes : List ℕ
  nFaceIndices : ℕ
  vlog : List (ℕ × ℤ)
  tlog : List (ℕ × ℤ)
  nlog : List (ℕ × ℤ)
  totalCorners : ℕ
  deriving DecidableEq

/-- `readOBJ`: pass 1 counts lines per kind; pass 2 fills the coordinate arrays,
records per-face token counts and accumulates `nFaceIndices`, aborting when
`nFaceIndices == 0`; pass 3 fills the corner-index arrays with the per-face
consistency check. -/
def readOBJ (lines : List ObjLine) : Option ObjResult :=
  let vs := objVertices lines
  let ns := objNormals lines
  let ts := objTexcoords lines
  let sizes := objFaceSizes lines
  let nFI := sizes.sum
  if nFI = 0 then none
  else
    (pass3 sizes lines 0 0 0 ⟨[], [], []⟩).map fun p =>
      ⟨vs.length, ns.length, ts.length, sizes.length,
        vs, ns, ts, sizes, nFI, p.1.v, p.1.t, p.1.n, p.2⟩

/-! ### Simple-format parser and writer (source: `readLine`, `readOFF`,
`writeOFF`). -/

/-- A line of the simple ("OFF") format.  `blank` is a line whose stripped text
has length at most 1 (only the terminator); `comment` starts with `#`; both are
skipped by `readLine`'s filter.  The face count is kept as `ℕ`: the source reads
an `int`, and a negative count is rejected by the same `n < 3` test that rejects
0, 1 and 2. -/
inductive OffLine where
  | header
  | counts (nv nf ne : ℕ)
  | vertex (x y z : ℚ)
  | face (n : ℕ) (idxs : List ℕ)
  | edge (a b : ℕ)
  | blank
  | comment
  deriving DecidableEq

/-- `readLine`'s acceptance test `strlen(*line) > 1 && (*line)[0] != '#'`. -/
def offLineOk : OffLine → Bool
  | .blank => false
  | .comment => false
  | .header => true
  | .counts _ _ _ => true
  | .vertex _ _ _ => true
  | .face _ _ => true
  | .edge _ _ => true

/-- `readLine` over reader state `(remaining lines, getline buffer)`.  `getline`
at end of file returns `-1`, which the source's `while (getline(...))` treats as
true, so the loop re-tests the unchanged buffer: if the stale buffer passes the
filter the stale line is returned (state unchanged), otherwise the source loops
forever — modelled as `none`, as is the case of a stale read before any line was
ever read (unspecified buffer). -/
def readLine : List OffLine → Option OffLine → Option (OffLine × List OffLine × Option OffLine)
  | [], buf =>
    match buf with
    | some b => if offLineOk b then some (b, [], some b) else none
    | none => none
  | l :: rest, _ =>
    if offLineOk l then some (l, rest, some l) else readLine rest (some l)

/-- The vertex loop of `readOFF`: `numVertices` iterations of `readLine` followed
by `sscanf(line, "%lf %lf %lf", ...)`. -/
def readVertsLoop : ℕ → List OffLine → Option OffLine →
    Option (List (ℚ × ℚ × ℚ) × List OffLine × Option OffLine)
  | 0, rem, buf => some ([], rem, buf)
  | k+1, rem, buf =>
    (readLine rem buf).bind fun s =>
      match s.1 with
      | .vertex x y z =>
        (readVertsLoop k s.2.1 s.2.2).map fun r => ((x, y, z) :: r.1, r.2)
      | _ => none

/-- The first face sub-pass of `readOFF`: per face, read the leading count `n`,
abort with `error: invalid vertex count` when `n < 3`, record it in the face-size
array. -/
def readSizesLoop : ℕ → List OffLine → Option OffLine →
    Option (List ℕ × List OffLine × Option OffLine)
  | 0, rem, buf => some ([], rem, buf)
  | k+1, rem, buf =>
    (readLine rem buf).bind fun s =>
      match s.1 with
      | .face n _ =>
        if n < 3 then none
        else (readSizesLoop k s.2.1 s.2.2).map fun r => (n :: r.1, r.2)
      | _ => none

/-- The second face sub-pass of `readOFF`: per face, re-read the count and then
`n` trailing integers via `strstr(lineBufShifted, " ") + 1`, appending them to
the corner-index array.  A line with fewer than `n` trailing numbers makes
`strstr` return `NULL` and the source crashes — modelled as `none`. -/
def readFillLoop : ℕ → List OffLine → Option OffLine →
    Option (List ℕ × List OffLine × Option OffLine)
  | 0, rem, buf => some ([], rem, buf)
  | k+1, rem, buf =>
    (readLine rem buf).bind fun s =>
      match s.1 with
      | .face n idxs =>
        if idxs.length < n then none
        else (readFillLoop k s.2.1 s.2.2).map fun r => (idxs.take n ++ r.1, r.2)
      | _ => none

/-- The outputs of `readOFF`: the vertex array, the face-size array and the
concatenated corner-index array (the `num*` out-parameters are the lengths of
the first two). -/
structure OffResult where
  verts : List (ℚ × ℚ × ℚ)
  faceSizes : List ℕ
  indices : List ℕ
  deriving DecidableEq

/-- `readOFF`: header line (must contain `OFF`), element-count line, `numVertices`
vertex lines, then the two face sub-passes.  The `ftell` bookmark taken after the
vertex block saves the file position (the remaining-line list) only; the `fseek`
back restores that position but leaves the `getline` buffer as the sizing pass
left it. -/
def readOFF (file : List OffLine) : Option OffResult :=
  (readLine file none).bind fun s1 =>
    match s1.1 with
    | .header =>
      (readLine s1.2.1 s1.2.2).bind fun s2 =>
        match s2.1 with
        | .counts nv nf _ =>
          (readVertsLoop nv s2.2.1 s2.2.2).bind fun sv =>
            (readSizesLoop nf sv.2.1 sv.2.2).bind fun ss =>
              (readFillLoop nf sv.2.1 ss.2.2).map fun sf =>
                ⟨sv.1, ss.1, sf.1⟩
        | _ => none
    | _ => none

/-- The effect of `fprintf(file, "%f", x)` on a coordinate value: `%f` prints the
value rounded to six fractional digits, which `sscanf("%lf")` reads back exactly
at the model's value level. -/
def round6 (q : ℚ) : ℚ :=
  ((⌊q * 1000000 + 1/2⌋ : ℤ) : ℚ) / 1000000

/-- The face loop of `writeOFF` for an effective size list: face `i` is written
as its count followed by the next `sizes[i]` entries of the corner-index array
(`faceBaseOffset` advances by the count).  Reading past the end of the index
array has no defined result in the source and is modelled as `none`; entries
beyond the last declared face are never read. -/
def writeFaces : List ℕ → List ℕ → Option (List OffLine)
  | [], _ => some []
  | n :: rest, idxs =>
    if idxs.length < n then none
    else (writeFaces rest (idxs.drop n)).map fun tl =>
      OffLine.face n (idxs.take n) :: tl

/-- `writeOFF`: header, count line, one vertex line per vertex (each coordinate
through `%f`, see `round6`), one face line per face — with the per-face count
taken from `pFaceSizes` when non-null and the constant 3 otherwise — and one
line per edge.  `numFaces` beyond the supplied size array would be read past its
end (`none`). -/
def writeOFF (verts : List (ℚ × ℚ × ℚ)) (idxs : List ℕ) (sizes? : Option (List ℕ))
    (numFaces : ℕ) (edges : List (ℕ × ℕ)) : Option (List OffLine) :=
  let effSizes? : Option (List ℕ) :=
    match sizes? with
    | some l => if numFaces ≤ l.length then some (l.take numFaces) else none
    | none => some (List.replicate numFaces 3)
  effSizes?.bind fun effSizes =>
    (writeFaces effSizes idxs).map fun faceLines =>
      OffLine.header
        :: OffLine.counts verts.length numFaces edges.length
        :: verts.map (fun p => OffLine.vertex (round6 p.1) (round6 p.2.1) (round6 p.2.2))
        ++ faceLines
        ++ edges.map (fun e => OffLine.edge e.1 e.2)

/-- Write-then-read composition used by the round-trip statements: the mesh is
written with its size array and read back by `readOFF`. -/
def roundTripOFF (verts : List (ℚ × ℚ × ℚ)) (sizes : List ℕ) (idxs : List ℕ) :
    Option OffResult :=
  (writeOFF verts idxs (some sizes) sizes.length []).bind readOFF

/-- The face lines `writeFaces` produces, as a total function: face `i` carries
its declared count and the next that-many index entries. -/
def chunked : List ℕ → List ℕ → List OffLine
  | [], _ => []
  | n :: rest, idxs => OffLine.face n (idxs.take n) :: chunked rest (idxs.drop n)

/-! ### Concrete inputs and outputs used by witness statements. -/

/-- A two-corner attributed file: `v 0 0 0` and `f 1 1`. -/
def objFileA : List ObjLine := [.v 0 0 0, .f [.corner [1], .corner [1]]]

/-- The parse result of `objFileA`. -/
def objResA : ObjResult :=
  ⟨1, 0, 0, 1, [(0, 0, 0)], [], [], [2], 2, [(0, 0), (1, 0)], [], [], 2⟩

/-- An attributed file with a normal, no texcoords, and one two-subfield corner:
`v 0 0 0`, `vn 0 0 1`, `f 1/1`. -/
def objFileB : List ObjLine := [.v 0 0 0, .vn 0 0 1, .f [.corner [1, 1]]]

/-- The parse result of `objFileB`. -/
def objResB : ObjResult :=
  ⟨1, 1, 0, 1, [(0, 0, 0)], [(0, 0, 1)], [], [1], 1, [(0, 0)], [], [(0, 0)], 1⟩

/-- A simple-format file with one vertex, one triangle face and matching counts:
`OFF`, `1 1 0`, `0 0 0`, `3 0 0 0`. -/
def offFileA : List OffLine :=
  [.header, .counts 1 1 0, .vertex 0 0 0, .face 3 [0, 0, 0]]

/-- The parse result of `offFileA`. -/
def offResA : OffResult := ⟨[(0, 0, 0)], [3], [0, 0, 0]⟩


theorem readN_length {buf : List ℕ} : ∀ {k off : ℕ} {l : List ℕ},
    readN buf off k = some l → l.length = k := by
  intro k
  induction k with
  | zero => intro off l h; simp [readN] at h; simp [← h]
  | succ k ih =>
    intro off l h
    simp only [readN, Option.bind_eq_some, Option.map_eq_some'] at h
    obtain ⟨x, _, xs, hxs, rfl⟩ := h
    simp [ih hxs]

theorem readN_append {buf ext : List ℕ} : ∀ {k off : ℕ} {l : List ℕ},
    readN buf off k = some l → readN (buf ++ ext) off k = some l := by
  intro k
  induction k with
  | zero => intro off l h; simpa [readN] using h
  | succ k ih =>
    intro off l h
    simp only [readN, Option.bind_eq_some, Option.map_eq_some'] at h ⊢
    obtain ⟨x, hx, xs, hxs, rfl⟩ := h
    have hoff : off < buf.length := (List.getElem?_eq_some.mp hx).1
    exact ⟨x, by rw [List.getElem?_append_left hoff]; exact hx, xs, ih hxs, rfl⟩

theorem decodeSeq_off {buf : List ℕ} : ∀ {k off off' : ℕ} {recs : List SeamRec},
    decodeSeq buf off k = some (recs, off') →
    off' = off + (recs.map fun r => 2 + r.1.length).sum := by
  intro k
  induction k with
  | zero =>
    intro off off' recs h
    simp only [decodeSeq, Option.some_inj, Prod.mk.injEq] at h
    obtain ⟨h1, h2⟩ := h
    subst h1; subst h2; simp
  | succ k ih =>
    intro off off' recs h
    simp only [decodeSeq, Option.bind_eq_some, Option.map_eq_some'] at h
    obtain ⟨len, hlen, flag, hflag, idxs, hidx, p, hp, hrec⟩ := h
    obtain ⟨recs', o2⟩ := p
    cases hrec
    have h1 := ih hp
    have h2 := readN_length hidx
    simp only [List.map_cons, List.sum_cons] at *
    omega

theorem decodeSeq_append {buf ext : List ℕ} : ∀ {k off : ℕ} {p : List SeamRec × ℕ},
    decodeSeq buf off k = some p → decodeSeq (buf ++ ext) off k = some p := by
  intro k
  induction k with
  | zero => intro off p h; simpa [decodeSeq] using h
  | succ k ih =>
    intro off p h
    simp only [decodeSeq, Option.bind_eq_some, Option.map_eq_some'] at h ⊢
    obtain ⟨len, hlen, flag, hflag, idxs, hidx, q, hq, hrec⟩ := h
    refine ⟨len, ?_, flag, ?_, idxs, readN_append hidx, q, ih hq, hrec⟩
    · rw [List.getElem?_append_left (List.getElem?_eq_some.mp hlen).1]; exact hlen
    · rw [List.getElem?_append_left (List.getElem?_eq_some.mp hflag).1]; exact hflag

/-- Claim C2 is refuted by the code: the decode loop performs no bounds check
at all — every element is fetched with unchecked `std::vector::operator[]` or
`memcpy` and the loop has no error path — so for the buffer `[1, 5, 0, 1, 2]`
(one declared sequence of length 5 with only two index elements remaining) it
does not fail with a malformed-stream/out-of-bounds error: whatever values the
memory beyond the vector holds, it runs to completion and produces a one-record
collection whose last three indices are read from past the end of the buffer. -/
theorem c2_unchecked_decode_produces_collection :
    ∀ mem : ℕ → ℕ,
      decodeSeamsUB [1, 5, 0, 1, 2] mem = [([1, 2, mem 5, mem 6, mem 7], 0)] := by
  intro mem
  rfl

/-- Claim C10: the decode reads exactly `1 + Σ (2 + len_k)` elements — the final
cursor equals that sum — so a well-formed buffer decodes to the same collection
after arbitrary extra elements are appended. -/
theorem c10_decode_ignores_trailing :
    (∀ (buf ext : List ℕ) (recs : List SeamRec),
      decodeSeams buf = some recs → decodeSeams (buf ++ ext) = some recs)
    ∧ (∀ (buf : List ℕ) (off k off' : ℕ) (recs : List SeamRec),
      decodeSeq buf off k = some (recs, off') →
      off' = off + (recs.map fun r => 2 + r.1.length).sum) := by
  constructor
  · intro buf ext recs h
    simp only [decodeSeams, Option.bind_eq_some, Option.map_eq_some'] at h ⊢
    obtain ⟨n, h0, p, hd, hfst⟩ := h
    have h1 : (0:ℕ) < buf.length := (List.getElem?_eq_some.mp h0).1
    exact ⟨n, by rw [List.getElem?_append_left h1]; exact h0, p, decodeSeq_append hd, hfst⟩
  · intro buf off k off' recs h
    exact decodeSeq_off h

/-- Witness for C10 at a concrete buffer: `[1,2,1,7,8]` decodes to the single
open sequence `[7,8]`, unchanged when `[9,9]` is appended; its cursor ends at 5. -/
theorem c10_witness :
    decodeSeams ([1, 2, 1, 7, 8] ++ [9, 9]) = some [([7, 8], 1)] ∧
    (5 : ℕ) = 1 + ([(([7, 8] : List ℕ), (1 : ℕ))].map fun r => 2 + r.1.length).sum :=
  ⟨c10_decode_ignores_trailing.1 [1, 2, 1, 7, 8] [9, 9] [([7, 8], 1)] (by decide),
    c10_decode_ignores_trailing.2 [1, 2, 1, 7, 8] 1 1 5 [([7, 8], 1)] (by decide)⟩


theorem subfieldStores_tlog : ∀ {k dataIt pos : ℕ} {val : ℤ} {logs : Logs},
    (subfieldStores false pos val dataIt k logs).t = logs.t := by
  intro k
  induction k with
  | zero => intro dataIt pos val logs; rfl
  | succ k ih =>
    intro dataIt pos val logs
    simp only [subfieldStores]
    rw [ih]
    by_cases hd : dataIt = 1
    · simp [hd]
    · simp only [hd, false_and, if_false, and_true]
      split_ifs <;> rfl

theorem processCorners_tlog : ∀ {toks : List ObjTok} {pos : ℕ} {logs : Logs},
    ((processCorners false toks pos logs).2).t = logs.t := by
  intro toks
  induction toks with
  | nil => intro pos logs; rfl
  | cons t rest ih =>
    intro pos logs
    cases t with
    | fword => exact ih
    | corner subs =>
      show ((processCorners false rest _ _).2).t = logs.t
      rw [ih, subfieldStores_tlog]

theorem pass3_tlog {sizes : List ℕ} : ∀ {lines : List ObjLine} {pos fid : ℕ}
    {logs : Logs} {p : Logs × ℕ},
    (∀ l ∈ lines, isVtLine l = false) →
    pass3 sizes lines 0 pos fid logs = some p → p.1.t = logs.t := by
  intro lines
  induction lines with
  | nil =>
    intro pos fid logs p _ h
    simp only [pass3, Option.some_inj] at h
    subst h
    rfl
  | cons l rest ih =>
    intro pos fid logs p hvt h
    have hrest : ∀ l ∈ rest, isVtLine l = false := fun x hx => hvt x (List.mem_cons_of_mem _ hx)
    cases l with
    | vt u w => exact absurd (hvt _ (List.mem_cons_self _ _)) (by simp [isVtLine])
    | f toks =>
      simp only [pass3] at h
      split at h
      · have := ih hrest h
        rw [this]
        exact processCorners_tlog
      · exact absurd h (by simp)
    | v x y z => exact ih hrest h
    | vn x y z => exact ih hrest h
    | other => exact ih hrest h

theorem processCorners_fst : ∀ {tex : Bool} {toks : List ObjTok} {pos : ℕ} {logs : Logs},
    (processCorners tex toks pos logs).1 = pos + (toks.filter isCornerTok).length := by
  intro tex toks
  induction toks with
  | nil => intro pos logs; simp [processCorners]
  | cons t rest ih =>
    intro pos logs
    cases t with
    | fword => simp [processCorners, List.filter, isCornerTok, ih]
    | corner subs =>
      show (processCorners tex rest (pos+1) _).1 = _
      rw [ih]
      simp [List.filter, isCornerTok]
      omega

theorem pass3_pos {sizes : List ℕ} : ∀ {lines : List ObjLine} {nT pos fid : ℕ}
    {logs : Logs} {p : Logs × ℕ},
    pass3 sizes lines nT pos fid logs = some p →
    p.2 = pos + ((sizes.drop fid).take (objFaceSizes lines).length).sum := by
  intro lines
  induction lines with
  | nil =>
    intro nT pos fid logs p h
    simp only [pass3, Option.some_inj] at h
    subst h
    simp [objFaceSizes]
  | cons l rest ih =>
    intro nT pos fid logs p h
    cases l with
    | vt u w =>
      have := ih h
      simpa [objFaceSizes] using this
    | v x y z =>
      have := ih h
      simpa [objFaceSizes] using this
    | vn x y z =>
      have := ih h
      simpa [objFaceSizes] using this
    | other =>
      have := ih h
      simpa [objFaceSizes] using this
    | f toks =>
      simp only [pass3] at h
      split at h
      · rename_i hguard
        have hrec := ih h
        rw [processCorners_fst] at hrec
        have hcount : objFaceSizes (ObjLine.f toks :: rest) = toks.length :: objFaceSizes rest := by
          simp [objFaceSizes]
        rw [hcount]
        rcases Nat.lt_or_ge fid sizes.length with hin | hout
        · rw [List.drop_eq_getElem_cons hin, List.length_cons, List.take_succ_cons,
            List.sum_cons]
          rw [List.getD_eq_getElem sizes 0 hin] at hguard
          omega
        · have h1 : sizes.drop fid = [] := List.drop_eq_nil_of_le hout
          have h2 : sizes.drop (fid+1) = [] := List.drop_eq_nil_of_le (by omega)
          rw [List.getD_eq_default sizes 0 hout] at hguard
          rw [h1]
          rw [h2] at hrec
          simp at hrec ⊢
          omega
      · exact absurd h (by simp)

theorem pass3_sizes {sizes : List ℕ} : ∀ {lines : List ObjLine} {nT pos fid : ℕ}
    {logs : Logs} {p : Logs × ℕ},
    fid + (objFaceSizes lines).length ≤ sizes.length →
    pass3 sizes lines nT pos fid logs = some p →
    lines.filterMap cornerCount = (sizes.drop fid).take (objFaceSizes lines).length := by
  intro lines
  induction lines with
  | nil => intro nT pos fid logs p _ _; simp [objFaceSizes, cornerCount]
  | cons l rest ih =>
    intro nT pos fid logs p hrange h
    cases l with
    | vt u w =>
      simpa [objFaceSizes, cornerCount] using
        ih (by simpa [objFaceSizes] using hrange) h
    | v x y z =>
      simpa [objFaceSizes, cornerCount] using
        ih (by simpa [objFaceSizes] using hrange) h
    | vn x y z =>
      simpa [objFaceSizes, cornerCount] using
        ih (by simpa [objFaceSizes] using hrange) h
    | other =>
      simpa [objFaceSizes, cornerCount] using
        ih (by simpa [objFaceSizes] using hrange) h
    | f toks =>
      simp only [pass3] at h
      split at h
      · rename_i hguard
        have hcount : objFaceSizes (ObjLine.f toks :: rest) = toks.length :: objFaceSizes rest := by
          simp [objFaceSizes]
        rw [hcount] at hrange ⊢
        simp only [List.length_cons] at hrange
        have hin : fid < sizes.length := by omega
        have hrec := ih (by omega) h
        rw [List.drop_eq_getElem_cons hin, List.length_cons, List.take_succ_cons]
        rw [List.getD_eq_getElem sizes 0 hin] at hguard
        simp only [List.filterMap_cons, cornerCount]
        rw [hrec, hguard]
      · exact absurd h (by simp)

/-- Claim C5: on every accepted attributed input, the total corner count from
pass 2 (the sum of the per-face sizes) equals the number of corners filled in
pass 3, and per face the pass-3 corner count equals the pass-2 token count
(the parse would have failed on any mismatch, never truncating). -/
theorem c5_corner_totals_agree :
    ∀ (lines : List ObjLine) (r : ObjResult), readOBJ lines = some r →
      r.faceSizes.sum = r.totalCorners ∧
      lines.filterMap cornerCount = r.faceSizes := by
  intro lines r h
  simp only [readOBJ] at h
  split at h
  · exact absurd h (by simp)
  · simp only [Option.map_eq_some'] at h
    obtain ⟨p, hp, rfl⟩ := h
    constructor
    · have := pass3_pos hp
      simp only [List.drop_zero] at this
      have hlen : (objFaceSizes lines).length = (objFaceSizes lines).length := rfl
      rw [this]
      simp [List.take_length]
    · have := pass3_sizes (by simp) hp
      simpa [List.take_length] using this

/-- Witness for C5 at the concrete file `objFileA`. -/
theorem c5_witness :
    objResA.faceSizes.sum = objResA.totalCorners ∧
    objFileA.filterMap cornerCount = objResA.faceSizes :=
  c5_corner_totals_agree objFileA objResA (by decide)

/-- Claim C6 (the slash-shift policy): when a corner token has exactly two
`/`-separated subfields and the mesh has no texcoords, processing the second
subfield stores into the normal corner-index array and nothing is ever stored
into the texcoord corner-index array (on a whole file without `vt ` lines the
texcoord store log of a successful parse is empty). -/
theorem c6_slash_shift :
    (∀ (pos : ℕ) (a b : ℤ) (logs : Logs),
      processCorners false [ObjTok.corner [a, b]] pos logs =
        (pos + 1, ⟨logs.v ++ [(pos, a - 1)], logs.t, logs.n ++ [(pos, a - 1)]⟩))
    ∧ (∀ (lines : List ObjLine) (r : ObjResult),
      (∀ l ∈ lines, isVtLine l = false) →
      readOBJ lines = some r → r.tlog = []) := by
  constructor
  · intro pos a b logs
    rfl
  · intro lines r hvt h
    simp only [readOBJ] at h
    split at h
    · exact absurd h (by simp)
    · simp only [Option.map_eq_some'] at h
      obtain ⟨p, hp, rfl⟩ := h
      exact pass3_tlog hvt hp

/-- Witness for C6: a concrete two-subfield corner stores to the normal log and
not the texcoord log, and the parse of `objFileB` (no `vt ` lines) has an empty
texcoord store log. -/
theorem c6_witness :
    processCorners false [ObjTok.corner [4, 9]] 0 ⟨[], [], []⟩ =
      (1, ⟨[(0, 3)], [], [(0, 3)]⟩) ∧
    objResB.tlog = [] :=
  ⟨c6_slash_shift.1 0 4 9 ⟨[], [], []⟩,
    c6_slash_shift.2 objFileB objResB (by decide) (by decide)⟩

/-- Claim C1 is refuted by the code: in pass 3 the value is extracted by
`sscanf(token, "%d", &val)` from the whole corner token rather than from the
current subfield `tokenElem`, so for the corner token `1/2/3` (with texcoords
and normals present) the texcoord and normal corner-index arrays receive the
leading subfield's value `1 - 1 = 0` instead of the claimed `2 - 1 = 1` and
`3 - 1 = 2`.  This contradicts the source's own intent (its `tokenElem`
tokenisation is otherwise unused and its switch cases are labelled
`texcooord id` and `normal id`). -/
theorem c1_subfield_value_bug :
    readOBJ [ObjLine.v 0 0 0, ObjLine.vt 0 0, ObjLine.vn 0 0 1,
        ObjLine.f [ObjTok.corner [1, 2, 3]]] =
      some ⟨1, 1, 1, 1, [(0, 0, 0)], [(0, 0, 1)], [(0, 0)], [1], 1,
        [(0, 0)], [(0, 0)], [(0, 0)], 1⟩ ∧
    [((0 : ℕ), (0 : ℤ))] ≠ [(0, 2 - 1)] ∧ [((0 : ℕ), (0 : ℤ))] ≠ [(0, 3 - 1)] := by
  refine ⟨by decide, by decide, by decide⟩

/-- Claim C9: the four-line attributed input `v 0 0 0`, `v 1 0 0`, `v 1 1 0`,
`f 1 2 3` parses to 3 vertices with those coordinates, 0 normals, 0 texcoords,
and one face of arity 3 whose corner vertex indices (the vertex store log) are
0, 1, 2 at slots 0, 1, 2. -/
theorem c9_example_parse :
    readOBJ [ObjLine.v 0 0 0, ObjLine.v 1 0 0, ObjLine.v 1 1 0,
        ObjLine.f [ObjTok.corner [1], ObjTok.corner [2], ObjTok.corner [3]]] =
      some ⟨3, 0, 0, 1, [(0, 0, 0), (1, 0, 0), (1, 1, 0)], [], [], [3], 3,
        [(0, 0), (1, 1), (2, 2)], [], [], 3⟩ := by
  decide


theorem readLine_cons {l : OffLine} {buf : Option OffLine} (rest : List OffLine)
    (h : offLineOk l = true) : readLine (l :: rest) buf = some (l, rest, some l) := by
  simp [readLine, h]

theorem readVertsLoop_map : ∀ (vs : List (ℚ × ℚ × ℚ)) (rest : List OffLine) (buf : Option OffLine),
    ∃ b, readVertsLoop vs.length
        (vs.map (fun p => OffLine.vertex p.1 p.2.1 p.2.2) ++ rest) buf = some (vs, rest, b) := by
  intro vs
  induction vs with
  | nil => intro rest buf; exact ⟨buf, rfl⟩
  | cons v vs ih =>
    intro rest buf
    obtain ⟨b, hb⟩ := ih rest (some (OffLine.vertex v.1 v.2.1 v.2.2))
    refine ⟨b, ?_⟩
    show readVertsLoop (vs.length + 1)
        (OffLine.vertex v.1 v.2.1 v.2.2 :: (vs.map _ ++ rest)) buf = _
    simp only [readVertsLoop, readLine_cons, offLineOk, Option.some_bind]
    simp only [hb, Option.map_some']

theorem readSizesLoop_faces : ∀ (sizes idxs : List ℕ) (fl rest : List OffLine) (buf : Option OffLine),
    writeFaces sizes idxs = some fl → (∀ s ∈ sizes, 3 ≤ s) →
    ∃ b, readSizesLoop sizes.length (fl ++ rest) buf = some (sizes, rest, b) := by
  intro sizes
  induction sizes with
  | nil =>
    intro idxs fl rest buf hw _
    simp [writeFaces] at hw
    subst hw
    exact ⟨buf, rfl⟩
  | cons n ss ih =>
    intro idxs fl rest buf hw h3
    simp only [writeFaces] at hw
    split at hw
    · exact absurd hw (by simp)
    · simp only [Option.map_eq_some'] at hw
      obtain ⟨tl, htl, rfl⟩ := hw
      obtain ⟨b, hb⟩ := ih (idxs.drop n) tl rest (some (OffLine.face n (idxs.take n))) htl
        (fun s hs => h3 s (List.mem_cons_of_mem _ hs))
      refine ⟨b, ?_⟩
      show readSizesLoop (ss.length + 1)
          (OffLine.face n (idxs.take n) :: (tl ++ rest)) buf = _
      simp only [readSizesLoop, readLine_cons, offLineOk, Option.some_bind]
      have hn : ¬ n < 3 := by
        have := h3 n (List.mem_cons_self _ _)
        omega
      simp only [hn, if_false, hb, Option.map_some']

theorem readFillLoop_faces : ∀ (sizes idxs : List ℕ) (fl rest : List OffLine) (buf : Option OffLine),
    writeFaces sizes idxs = some fl →
    ∃ b, readFillLoop sizes.length (fl ++ rest) buf = some (idxs.take sizes.sum, rest, b) := by
  intro sizes
  induction sizes with
  | nil =>
    intro idxs fl rest buf hw
    simp [writeFaces] at hw
    subst hw
    exact ⟨buf, rfl⟩
  | cons n ss ih =>
    intro idxs fl rest buf hw
    simp only [writeFaces] at hw
    split at hw
    · exact absurd hw (by simp)
    · rename_i hlen
      simp only [Option.map_eq_some'] at hw
      obtain ⟨tl, htl, rfl⟩ := hw
      obtain ⟨b, hb⟩ := ih (idxs.drop n) tl rest (some (OffLine.face n (idxs.take n))) htl
      refine ⟨b, ?_⟩
      show readFillLoop (ss.length + 1)
          (OffLine.face n (idxs.take n) :: (tl ++ rest)) buf = _
      simp only [readFillLoop, readLine_cons, offLineOk, Option.some_bind]
      have hmin : (idxs.take n).length = n := by
        rw [List.length_take]
        omega
      rw [hmin, if_neg (lt_irrefl n), hb, Option.map_some']
      have htt : (idxs.take n).take n = idxs.take n := by
        rw [List.take_take, min_self]
      rw [htt]
      have : idxs.take n ++ (idxs.drop n).take ss.sum = idxs.take (n + ss.sum) :=
        (List.take_add idxs n ss.sum).symm
      rw [this]
      rfl

theorem writeFaces_total : ∀ (sizes idxs : List ℕ), sizes.sum ≤ idxs.length →
    ∃ fl, writeFaces sizes idxs = some fl := by
  intro sizes
  induction sizes with
  | nil => intro idxs _; exact ⟨[], rfl⟩
  | cons n ss ih =>
    intro idxs hle
    simp only [List.sum_cons] at hle
    have h1 : ¬ idxs.length < n := by omega
    obtain ⟨tl, htl⟩ := ih (idxs.drop n) (by rw [List.length_drop]; omega)
    exact ⟨OffLine.face n (idxs.take n) :: tl, by simp [writeFaces, h1, htl]⟩

theorem roundTripOFF_eq : ∀ (verts : List (ℚ × ℚ × ℚ)) (sizes idxs : List ℕ),
    (∀ s ∈ sizes, 3 ≤ s) → sizes.sum = idxs.length →
    roundTripOFF verts sizes idxs =
      some ⟨verts.map (fun p => (round6 p.1, round6 p.2.1, round6 p.2.2)), sizes, idxs⟩ := by
  intro verts sizes idxs h3 hsum
  obtain ⟨fl, hfl⟩ := writeFaces_total sizes idxs (le_of_eq hsum)
  have hw : writeOFF verts idxs (some sizes) sizes.length [] = some
      (OffLine.header :: OffLine.counts verts.length sizes.length 0
        :: verts.map (fun p => OffLine.vertex (round6 p.1) (round6 p.2.1) (round6 p.2.2))
        ++ fl) := by
    simp [writeOFF, hfl, List.take_length]
  rw [roundTripOFF, hw, Option.some_bind]
  have hvm : verts.map (fun p => OffLine.vertex (round6 p.1) (round6 p.2.1) (round6 p.2.2)) =
      (verts.map (fun p => (round6 p.1, round6 p.2.1, round6 p.2.2))).map
        (fun p => OffLine.vertex p.1 p.2.1 p.2.2) := by
    rw [List.map_map]
    rfl
  simp only [readOFF, List.cons_append, readLine_cons, offLineOk, Option.some_bind]
  rw [hvm]
  obtain ⟨b3, hv⟩ := readVertsLoop_map
    (verts.map (fun p => (round6 p.1, round6 p.2.1, round6 p.2.2))) fl
    (some (OffLine.counts verts.length sizes.length 0))
  rw [List.length_map] at hv
  rw [hv]
  simp only [Option.some_bind]
  obtain ⟨b4, hs⟩ := readSizesLoop_faces sizes idxs fl [] b3 hfl h3
  rw [List.append_nil] at hs
  rw [hs]
  simp only [Option.some_bind]
  obtain ⟨b5, hf⟩ := readFillLoop_faces sizes idxs fl [] b4 hfl
  rw [List.append_nil] at hf
  rw [hf]
  simp [hsum, List.take_length]

theorem round6_zero : round6 0 = 0 := by
  have h1 : ((0:ℚ)) * 1000000 + 1/2 = 1/2 := by norm_num
  have h2 : ⌊(1/2 : ℚ)⌋ = 0 :=
    Int.floor_eq_zero_iff.mpr (Set.mem_Ico.mpr ⟨by norm_num, by norm_num⟩)
  rw [round6, h1, h2]
  norm_num

theorem round6_small : round6 ((1:ℚ)/10000000) = 0 := by
  have h1 : ((1:ℚ)/10000000) * 1000000 + 1/2 = 3/5 := by norm_num
  have h2 : ⌊(3/5 : ℚ)⌋ = 0 :=
    Int.floor_eq_zero_iff.mpr (Set.mem_Ico.mpr ⟨by norm_num, by norm_num⟩)
  rw [round6, h1, h2]
  norm_num

/-- Counterexample to claim C3 as stated: the mesh with the single vertex
`(10⁻⁷, 0, 0)` and one triangle face does not round-trip identically — `%f`
prints the coordinate as `0.000000`, which reads back as `0`. -/
theorem c3_counterexample :
    roundTripOFF [((1:ℚ)/10000000, 0, 0)] [3] [0, 0, 0] ≠
      some ⟨[((1:ℚ)/10000000, 0, 0)], [3], [0, 0, 0]⟩ := by
  rw [roundTripOFF_eq _ _ _ (by decide) (by decide)]
  simp only [List.map_cons, List.map_nil, ne_eq, Option.some_inj, OffResult.mk.injEq,
    List.cons.injEq, Prod.mk.injEq, and_true]
  intro h
  have h1 := h.1
  rw [round6_small] at h1
  norm_num at h1

/-- Claim C3, amended: writing a mesh (all face sizes at least 3, face sizes
summing to the corner-index-array length) with `writeOFF` and re-reading it with
`readOFF` yields the identical face-size and corner-index arrays, and vertex
coordinates equal to the originals rounded to six decimal places (`%f`) — hence
identical exactly when every coordinate is such a rounding fixed point. -/
theorem c3_roundtrip_rounded : ∀ (verts : List (ℚ × ℚ × ℚ)) (sizes idxs : List ℕ),
    (∀ s ∈ sizes, 3 ≤ s) → sizes.sum = idxs.length →
    roundTripOFF verts sizes idxs =
      some ⟨verts.map (fun p => (round6 p.1, round6 p.2.1, round6 p.2.2)), sizes, idxs⟩ :=
  roundTripOFF_eq

/-- Witness for C3 (amended) at a concrete mesh with 6-decimal-exact
coordinates: the round trip is the identity. -/
theorem c3_witness :
    roundTripOFF [((0:ℚ), 0, 0)] [3] [0, 0, 0] = some ⟨[((0:ℚ), 0, 0)], [3], [0, 0, 0]⟩ :=
  (c3_roundtrip_rounded [((0:ℚ), 0, 0)] [3] [0, 0, 0] (by decide) (by decide)).trans
    (by simp [round6_zero])

/-- Claim C4 is refuted by the code: on a simple-format file declaring 2 faces
but containing only one face line (after the single declared vertex), the parse
returns successfully instead of failing — `getline` returns `-1` at end of
file, which `while (getline(...))` treats as true, so `readLine` hands back the
stale buffer (the last face line) and the second face is filled from it. -/
theorem c4_truncated_file_parses :
    readOFF [OffLine.header, OffLine.counts 1 2 0, OffLine.vertex 0 0 0,
        OffLine.face 3 [0, 1, 2]] =
      some ⟨[(0, 0, 0)], [3, 3], [0, 1, 2, 0, 1, 2]⟩ := by
  decide

theorem readSizesLoop_ge3 : ∀ {k : ℕ} {rem : List OffLine} {buf : Option OffLine}
    {t : List ℕ × List OffLine × Option OffLine},
    readSizesLoop k rem buf = some t → ∀ s ∈ t.1, 3 ≤ s := by
  intro k
  induction k with
  | zero =>
    intro rem buf t h s hs
    simp only [readSizesLoop, Option.some_inj] at h
    subst h
    simp at hs
  | succ k ih =>
    intro rem buf t h s hs
    simp only [readSizesLoop, Option.bind_eq_some] at h
    obtain ⟨s1, hrl, h⟩ := h
    split at h
    · split at h
      · exact absurd h (by simp)
      · rename_i n is hn
        simp only [Option.map_eq_some'] at h
        obtain ⟨r, hr, rfl⟩ := h
        rcases List.mem_cons.mp hs with rfl | hmem
        · omega
        · exact ih hr s hmem
    · exact absurd h (by simp)

/-- Claim C7: a face line declaring fewer than 3 corners makes the face-sizing
sub-pass of the simple-format parser fail at once, and every face-size array
returned by a successful `readOFF` contains only values at least 3. -/
theorem c7_min_face_size :
    (∀ (file : List OffLine) (r : OffResult),
      readOFF file = some r → ∀ s ∈ r.faceSizes, 3 ≤ s)
    ∧ (∀ (n : ℕ) (is : List ℕ) (rest : List OffLine) (buf : Option OffLine) (k : ℕ),
      n < 3 → readSizesLoop (k+1) (OffLine.face n is :: rest) buf = none) := by
  constructor
  · intro file r h s hs
    simp only [readOFF, Option.bind_eq_some] at h
    obtain ⟨s1, h1, h⟩ := h
    split at h
    · simp only [Option.bind_eq_some] at h
      obtain ⟨s2, h2, h⟩ := h
      split at h
      · simp only [Option.bind_eq_some] at h
        obtain ⟨sv, hv, ss, hss, h⟩ := h
        simp only [Option.map_eq_some'] at h
        obtain ⟨sf, hsf, rfl⟩ := h
        exact readSizesLoop_ge3 hss s hs
      · exact absurd h (by simp)
    · exact absurd h (by simp)
  · intro n is rest buf k hn
    simp only [readSizesLoop, readLine_cons, offLineOk, Option.some_bind]
    simp [hn]

/-- Witness for C7: the success case instantiated at `offFileA` (its only face
size is 3) and the failure case at a concrete face line declaring 2 corners. -/
theorem c7_witness :
    (3 : ℕ) ≤ 3 ∧ readSizesLoop 1 [OffLine.face 2 [0, 1]] none = none :=
  ⟨c7_min_face_size.1 offFileA offResA (by decide) 3 (by decide),
    c7_min_face_size.2 2 [0, 1] [] none 0 (by decide)⟩

theorem writeFaces_replicate : ∀ (nf : ℕ) (idxs : List ℕ) (fl : List OffLine),
    writeFaces (List.replicate nf 3) idxs = some fl →
    fl = (List.range nf).map (fun i => OffLine.face 3 ((idxs.drop (3*i)).take 3)) := by
  intro nf
  induction nf with
  | zero =>
    intro idxs fl h
    simp [writeFaces] at h
    simp [← h]
  | succ nf ih =>
    intro idxs fl h
    rw [List.replicate_succ] at h
    simp only [writeFaces] at h
    split at h
    · exact absurd h (by simp)
    · simp only [Option.map_eq_some'] at h
      obtain ⟨tl, htl, rfl⟩ := h
      have hrec := ih (idxs.drop 3) tl htl
      rw [List.range_succ_eq_map, List.map_cons, List.map_map]
      have harg : ∀ i : ℕ, ((idxs.drop 3).drop (3*i)).take 3 = (idxs.drop (3*(i+1))).take 3 := by
        intro i
        rw [List.drop_drop]
        congr 2
        ring
      simp only [harg] at hrec
      rw [hrec]
      simp only [Nat.mul_zero, List.drop_zero]
      congr 1

theorem writeFaces_chunked : ∀ (sizes idxs : List ℕ) (fl : List OffLine),
    writeFaces sizes idxs = some fl → fl = chunked sizes idxs := by
  intro sizes
  induction sizes with
  | nil =>
    intro idxs fl h
    simp [writeFaces] at h
    simp [← h, chunked]
  | cons n ss ih =>
    intro idxs fl h
    simp only [writeFaces] at h
    split at h
    · exact absurd h (by simp)
    · simp only [Option.map_eq_some'] at h
      obtain ⟨tl, htl, rfl⟩ := h
      rw [chunked, ih _ _ htl]

theorem writeFaces_mem_len : ∀ (sizes idxs : List ℕ) (fl : List OffLine) (n : ℕ) (is : List ℕ),
    writeFaces sizes idxs = some fl → OffLine.face n is ∈ fl → is.length = n := by
  intro sizes
  induction sizes with
  | nil =>
    intro idxs fl n is h hmem
    simp [writeFaces] at h
    subst h
    simp at hmem
  | cons m ss ih =>
    intro idxs fl n is h hmem
    simp only [writeFaces] at h
    split at h
    · exact absurd h (by simp)
    · rename_i hlen
      simp only [Option.map_eq_some'] at h
      obtain ⟨tl, htl, rfl⟩ := h
      rcases List.mem_cons.mp hmem with heq | hmem'
      · cases heq
        rw [List.length_take]
        omega
      · exact ih _ _ _ _ htl hmem'

/-- Claim C8: with a null face-size array `writeOFF` writes every face as a
triangle — face `i` is the count 3 followed by index entries `3i, 3i+1, 3i+2`
of the corner-index array — and with a supplied size array face `i` carries its
declared size followed by exactly that many consecutive index entries. -/
theorem c8_writer_face_lines :
    (∀ (verts : List (ℚ × ℚ × ℚ)) (idxs : List ℕ) (nf : ℕ) (eds : List (ℕ × ℕ))
        (out : List OffLine),
      writeOFF verts idxs none nf eds = some out →
      out = OffLine.header :: OffLine.counts verts.length nf eds.length
        :: verts.map (fun p => OffLine.vertex (round6 p.1) (round6 p.2.1) (round6 p.2.2))
        ++ (List.range nf).map (fun i => OffLine.face 3 ((idxs.drop (3*i)).take 3))
        ++ eds.map (fun e => OffLine.edge e.1 e.2))
    ∧ (∀ (verts : List (ℚ × ℚ × ℚ)) (idxs sizes : List ℕ) (eds : List (ℕ × ℕ))
        (out : List OffLine),
      writeOFF verts idxs (some sizes) sizes.length eds = some out →
      out = OffLine.header :: OffLine.counts verts.length sizes.length eds.length
        :: verts.map (fun p => OffLine.vertex (round6 p.1) (round6 p.2.1) (round6 p.2.2))
        ++ chunked sizes idxs
        ++ eds.map (fun e => OffLine.edge e.1 e.2))
    ∧ (∀ (sizes idxs : List ℕ) (fl : List OffLine) (n : ℕ) (is : List ℕ),
      writeFaces sizes idxs = some fl → OffLine.face n is ∈ fl → is.length = n) := by
  refine ⟨?_, ?_, writeFaces_mem_len⟩
  · intro verts idxs nf eds out h
    simp only [writeOFF, Option.some_bind, Option.map_eq_some'] at h
    obtain ⟨fl, hfl, rfl⟩ := h
    rw [writeFaces_replicate nf idxs fl hfl]
  · intro verts idxs sizes eds out h
    simp only [writeOFF, le_refl, if_true, List.take_length, Option.some_bind,
      Option.map_eq_some'] at h
    obtain ⟨fl, hfl, rfl⟩ := h
    rw [writeFaces_chunked sizes idxs fl hfl]

/-- Witness for C8 at concrete calls: two triangle faces from a null size
array, one face from a supplied size array, and the exact-length property. -/
theorem c8_witness :
    ([OffLine.header, OffLine.counts 0 2 0, OffLine.face 3 [0, 1, 2],
        OffLine.face 3 [3, 4, 5]] : List OffLine) =
      OffLine.header :: OffLine.counts ([] : List (ℚ × ℚ × ℚ)).length 2
          ([] : List (ℕ × ℕ)).length
        :: ([] : List (ℚ × ℚ × ℚ)).map
            (fun p => OffLine.vertex (round6 p.1) (round6 p.2.1) (round6 p.2.2))
        ++ (List.range 2).map
            (fun i => OffLine.face 3 ((([0, 1, 2, 3, 4, 5] : List ℕ).drop (3*i)).take 3))
        ++ ([] : List (ℕ × ℕ)).map (fun e => OffLine.edge e.1 e.2) ∧
    ([OffLine.header, OffLine.counts 0 1 0, OffLine.face 2 [5, 6]] : List OffLine) =
      OffLine.header :: OffLine.counts ([] : List (ℚ × ℚ × ℚ)).length ([2] : List ℕ).length
          ([] : List (ℕ × ℕ)).length
        :: ([] : List (ℚ × ℚ × ℚ)).map
            (fun p => OffLine.vertex (round6 p.1) (round6 p.2.1) (round6 p.2.2))
        ++ chunked [2] [5, 6]
        ++ ([] : List (ℕ × ℕ)).map (fun e => OffLine.edge e.1 e.2) ∧
    ([9, 9, 9, 9] : List ℕ).length = 4 :=
  ⟨c8_writer_face_lines.1 [] [0, 1, 2, 3, 4, 5] 2 [] _ (by decide),
    c8_writer_face_lines.2.1 [] [5, 6] [2] [] _ (by decide),
    c8_writer_face_lines.2.2 [4] [9, 9, 9, 9] [OffLine.face 4 [9, 9, 9, 9]] 4 [9, 9, 9, 9]
      (by decide) (by decide)⟩

end Mcut
